import Mathlib

/-!
Verification of the tweet-search query engine (`main.py`).

Strings of the Python program are modelled as `List Char` (`Str`); the two
Berkeley-DB indexes (`dates_db`, `terms_db`) are modelled as their sorted
entry lists `List (Str × Str)` (key, value), duplicates adjacent, which is
the storage contract of the ordered key-value store.  Cursor operations are
modelled on that entry list: `set_range k` positions at the suffix starting
at the first entry with key ≥ k, `set k` at the suffix starting at the first
entry with key = k, `next` moves one entry forward, `next_dup` moves forward
only while the key stays the same, `next_nodup` skips to the next distinct
key (and, as in Berkeley DB, acts as `first` on an unpositioned cursor).

Python match sets are modelled as `Finset Str`; fallible Python code
(statements that can raise) returns `Option`.
-/

abbrev Str := List Char

abbrev Entry := Str × Str

abbrev DB := List Entry

/-- The dates/terms databases are sorted by key (ordered key-value store). -/
def DBSorted (db : DB) : Prop := List.Pairwise (fun a b : Entry => a.1 ≤ b.1) db

instance (db : DB) : Decidable (DBSorted db) := by
  unfold DBSorted; infer_instance

/-! ### Tokenization (Python `str.split`) -/

/-- Python `s.split(sep)` for a one-character separator: split at every
occurrence of `sep`, keeping empty pieces. -/
def pySplit (sep : Char) : Str → List Str
  | [] => [[]]
  | c :: rest =>
    if c = sep then [] :: pySplit sep rest
    else
      match pySplit sep rest with
      | s :: ss => (c :: s) :: ss
      | [] => [[c]]

/-- Python `s.split(None)`: split at whitespace, discarding empty pieces. -/
def pySplitP (p : Char → Bool) : Str → List Str
  | [] => [[]]
  | c :: rest =>
    if p c then [] :: pySplitP p rest
    else
      match pySplitP p rest with
      | s :: ss => (c :: s) :: ss
      | [] => [[c]]

/-- `query.split()` in `Query.__init__`. -/
def tokens (q : Str) : List Str := (pySplitP Char.isWhitespace q).filter (fun t => !t.isEmpty)

/-! ### Clause data and parsing (`Query.sort_terms`, `Query.classify_term`) -/

/-- The dictionary stored in each linked-list node: `{'code': …, 'prefix': …,
'term': …}`.  `pfx` is `none` for Python `None`; Python's empty-string
prefix is `some []`. -/
structure ClauseData where
  code : Nat
  pfx : Option Str
  term : Str
deriving DecidableEq, Repr

def nameT : Str := "name".toList
def locationT : Str := "location".toList
def textT : Str := "text".toList
def dateT : Str := "date".toList

/-- `self.t_prefixes = ['text:', 'name:', 'location:']` -/
def t_prefixes : List Str := ["text:".toList, "name:".toList, "location:".toList]

/-- `self.d_prefixes = ['date:', 'date<', 'date>']` -/
def d_prefixes : List Str := ["date:".toList, "date<".toList, "date>".toList]

/-- `Query.valid_prefixes` -/
def valid_prefixes (p : Str) : Bool := decide (p ∈ t_prefixes) || decide (p ∈ d_prefixes)

/-- `Query.classify_term(term, prefix, mid, partial)`.  As in the source the
`term` argument is unused; `pre` is the raw text left of the separator
(before prefix validation), `mid` the separator, `part` whether the whole
token ends in `%`. -/
def classify_term (term : Str) (pre : Option Str) (mid : Option Char) (part : Bool) : Nat :=
  if pre = some dateT then
    if mid = some ':' then 4 else 9
  else if part then
    if pre = some nameT then 6
    else if pre = some locationT then 7
    else if pre = some textT then 8
    else 10
  else
    if pre = some nameT then 1
    else if pre = some locationT then 2
    else if pre = some textT then 3
    else 5

/-- Separator detection in `Query.sort_terms`: `':' in term` is tested first,
then `'>'`, then `'<'` (priority, not first occurrence). -/
def selMid (t : Str) : Option Char :=
  if ':' ∈ t then some ':'
  else if '>' ∈ t then some '>'
  else if '<' ∈ t then some '<'
  else none

/-- One iteration of the `for term in self.terms` loop of `Query.sort_terms`,
producing the node data.  `prefix, word = term.split(mid)` raises
`ValueError` unless the split has exactly two pieces, hence the `Option`. -/
def procTerm (t : Str) : Option ClauseData :=
  let part := decide (t.getLast? = some '%')
  match selMid t with
  | none => some ⟨classify_term t none none part, none, t⟩
  | some m =>
    match pySplit m t with
    | [p, w] =>
      let code := classify_term w (some p) (some m) part
      if p ≠ [] then
        if valid_prefixes (p ++ [m]) then some ⟨code, some (p ++ [m]), w⟩
        else some ⟨code, none, t⟩
      else some ⟨code, some p, w⟩
    | _ => none

/-- `LinkedList.insert`: walk past nodes with strictly smaller code and place
the new node before the first node whose code is ≥ the new one. -/
def insertLL (d : ClauseData) : List ClauseData → List ClauseData
  | [] => [d]
  | c :: rest => if d.code ≤ c.code then d :: c :: rest else c :: insertLL d rest

/-- Parse each token in order (`None` on the first `ValueError`). -/
def parseTokens : List Str → Option (List ClauseData)
  | [] => some []
  | t :: ts =>
    match procTerm t, parseTokens ts with
    | some d, some ds => some (d :: ds)
    | _, _ => none

/-- `Query.sort_terms`: tokenize, build node data per token and insert each
into the linked list in token order. -/
def sort_terms (q : Str) : Option (List ClauseData) :=
  match parseTokens (tokens q) with
  | none => none
  | some ds => some (ds.foldl (fun l d => insertLL d l) [])

/-! ### Index scans (`match_query`, `match_general`, `match_range`) -/

/-- Cursor loop of a partial scan: `while iter and needle in iter[0]`, body
collects the current value and advances with `curs.next()`. -/
def scanPartial (needle : Str) : List Entry → Finset Str
  | [] => ∅
  | (k, v) :: rest =>
    if needle <:+: k then insert v (scanPartial needle rest) else ∅

/-- Continuation of an exact scan after the first entry: `curs.next_dup()`
yields the next entry only while its key equals the current key. -/
def scanDupGo (needle k : Str) : List Entry → Finset Str
  | [] => ∅
  | (k2, v2) :: rest =>
    if k2 = k ∧ needle <:+: k2 then insert v2 (scanDupGo needle k rest) else ∅

/-- Cursor loop of an exact scan: `curs.set(key)` then
`while iter and needle in iter[0]` advancing with `curs.next_dup()`. -/
def scanDup (needle : Str) : List Entry → Finset Str
  | [] => ∅
  | (k, v) :: rest =>
    if needle <:+: k then insert v (scanDupGo needle k rest) else ∅

/-- Shared body of `Query.match_query` and the per-tag loop body of
`Query.match_general`: position with `set_range key` (partial) or `set key`
(exact) and run the collect loop whose condition is `needle in iter[0]`. -/
def scanFrom (q_db : DB) (key needle : Str) (part : Bool) : Finset Str :=
  if part then scanPartial needle (q_db.dropWhile (fun e => decide (e.1 < key)))
  else scanDup needle (q_db.dropWhile (fun e => decide (e.1 ≠ key)))

/-- `Query.match_query(q_db, query, partial)`: the loop condition tests the
full query string against the encountered key. -/
def match_query (q_db : DB) (q : Str) (part : Bool) : Finset Str :=
  scanFrom q_db q q part

/-- One iteration of the `for i in range(3)` loop of `Query.match_general`:
the key is `tag + '-' + term` but the loop condition tests only `term`. -/
def matchTag (tdb : DB) (tag : Char) (t : Str) (part : Bool) : Finset Str :=
  scanFrom tdb (tag :: '-' :: t) t part

/-- `Query.match_general(term, partial)`: union of the three tag scans. -/
def match_general (tdb : DB) (t : Str) (part : Bool) : Finset Str :=
  matchTag tdb 'l' t part ∪ matchTag tdb 'n' t part ∪ matchTag tdb 't' t part

/-- Collect loop of `Query.match_range` for `mid == '<'`: starting from
`curs1.first()`, break at the first key ≥ the boundary, else collect. -/
def collectLess (date : Str) : List Entry → Finset Str
  | [] => ∅
  | (k, v) :: rest => if date ≤ k then ∅ else insert v (collectLess date rest)

/-- Collect loop of `Query.match_range` for `mid == '>'`: no break, collect
every remaining entry. -/
def collectAll (l : List Entry) : Finset Str := (l.map (fun e => e.2)).toFinset

/-- `Query.match_range(date, mid)`: `set_range(date)`, then iterate from
`first()` for `'<'` or from `next_nodup()` for `'>'`.  A failed `set_range`
leaves the cursor unpositioned, so `next_nodup` behaves as `first`
(Berkeley DB `DB_NEXT_NODUP` on an uninitialized cursor). -/
def match_range (ddb : DB) (date : Str) (mid : Char) : Finset Str :=
  let pos := ddb.dropWhile (fun e => decide (e.1 < date))
  if mid = '<' then collectLess date ddb
  else
    match pos with
    | [] => collectAll ddb
    | (k, _) :: rest => collectAll (rest.dropWhile (fun e => decide (e.1 = k)))

/-- `Query.get_dates(date, mid)`. -/
def get_dates (ddb : DB) (date : Str) (mid : Char) : Finset Str :=
  if mid = ':' then match_query ddb date false else match_range ddb date mid

/-- `Query.get_terms(term, prefix)`: strip a trailing `%`, then either the
three-tag general scan (no prefix) or a single scan keyed
`prefix[0] + '-' + term`; `prefix[0]` raises `IndexError` on an empty
prefix, hence the `Option`. -/
def get_terms (tdb : DB) (term : Str) (pfx : Option Str) : Option (Finset Str) :=
  let part := decide (term.getLast? = some '%')
  let t := if term.getLast? = some '%' then term.dropLast else term
  match pfx with
  | none => some (match_general tdb t part)
  | some p =>
    match p.head? with
    | none => none
    | some ch => some (match_query tdb (ch :: '-' :: t) part)

/-! ### Result aggregation (`Query.get_results`) -/

/-- Dispatch inside the `while current != None` loop:
`if prefix is None or 'date' not in prefix: get_terms else get_dates`,
the latter called with `prefix[-1]`. -/
def evalClause (ddb tdb : DB) (c : ClauseData) : Option (Finset Str) :=
  match c.pfx with
  | none => get_terms tdb c.term none
  | some p =>
    if ¬ (dateT <:+: p) then get_terms tdb c.term (some p)
    else
      match p.getLast? with
      | some m => some (get_dates ddb c.term m)
      | none => none

/-- The `while current != None` loop of `Query.get_results`.  The inner
result is `none` while `self.results is None`; the outer `Option` is a
raised exception.  The second `break` mirrors the source's dead guard
`if self.results and len(self.results) == 0`. -/
def qloop (ddb tdb : DB) : List ClauseData → Option (Finset Str) → Option (Option (Finset Str))
  | [], res => some res
  | c :: rest, res =>
    match evalClause ddb tdb c with
    | none => none
    | some records =>
      if records = ∅ then some (some (∅ : Finset Str))
      else
        let res2 := match res with
          | none => records
          | some s => s ∩ records
        if res2 ≠ ∅ ∧ res2 = ∅ then some (some res2)
        else qloop ddb tdb rest (some res2)

/-- `Query(dates_db, terms_db, query).get_results()`: parse, run the clause
loop, and return `sorted(self.results)` when truthy, `[]` otherwise. -/
def get_results (ddb tdb : DB) (q : Str) : Option (List Str) :=
  match sort_terms q with
  | none => none
  | some cs =>
    match qloop ddb tdb cs none with
    | none => none
    | some none => some []
    | some (some s) => some (if s ≠ ∅ then Finset.sort (· ≤ ·) s else [])

/-! ### Auxiliary definitions for the statements -/

/-- A clause whose stored prefix evaluation can handle: `None` or one of the
six recognized prefixes.  The only other reachable value is the empty-string
prefix produced by a token starting with its separator, on which
`get_terms` raises `IndexError`. -/
def GoodClause (c : ClauseData) : Prop :=
  c.pfx = none ∨
    c.pfx ∈ [some "name:".toList, some "location:".toList, some "text:".toList,
      some "date:".toList, some "date<".toList, some "date>".toList]

instance (c : ClauseData) : Decidable (GoodClause c) := by
  unfold GoodClause; infer_instance

/-- The match set of one clause (total under `GoodClause`). -/
def clauseMatch (ddb tdb : DB) (c : ClauseData) : Finset Str :=
  (evalClause ddb tdb c).getD ∅

/-- The §4.2 selectivity table, keyed by a field text, a comparator and a
wildcard flag.  Stated from the spec for comparison with the code's
`classify_term`. -/
def rankTable (field : Option Str) (mid : Option Char) (wild : Bool) : Nat :=
  match field with
  | some f =>
    if f = dateT then (if mid = some ':' then 4 else 9)
    else if f = nameT then (if wild then 6 else 1)
    else if f = locationT then (if wild then 7 else 2)
    else if f = textT then (if wild then 8 else 3)
    else (if wild then 10 else 5)
  | none => if wild then 10 else 5

/-- The raw text to the left of the selected separator of a token (the
`prefix` value of `prefix, word = term.split(mid)` before validation). -/
def rawPre (t : Str) : Option Str :=
  match selMid t with
  | none => none
  | some m => some ((pySplit m t).headD [])

/-! ### Cursor-operation traces

To settle the frame claims, every scan also gets a traced embedding that
records the sequence of store/cursor operations the source performs, in
order.  The operation alphabet is the store API, including the write
operations (`put`, `del`) the store offers but the query engine never
calls; `applyOp` interprets an operation against a store. -/

inductive Op where
  | openCur : Op
  | set : Str → Op
  | setRange : Str → Op
  | getCur : Op
  | next : Op
  | nextDup : Op
  | nextNodup : Op
  | first : Op
  | close : Op
  | put : Str → Str → Op
  | del : Str → Op
deriving DecidableEq

/-- Effect of one operation on the stored entries: only `put` and `del`
change the store. -/
def applyOp (s : DB) : Op → DB
  | .put k v => (k, v) :: s
  | .del k => s.filter (fun e => decide (e.1 ≠ k))
  | _ => s

def benign : Op → Bool
  | .put _ _ => false
  | .del _ => false
  | _ => true

/-- Trace of the partial-scan loop: each iteration does `curs.get(DB_CURRENT)`
and `curs.next()`. -/
def opsScanPartial (needle : Str) : List Entry → List Op
  | [] => []
  | (k, _) :: rest =>
    if needle <:+: k then Op.getCur :: Op.next :: opsScanPartial needle rest else []

def opsScanDupGo (needle k : Str) : List Entry → List Op
  | [] => []
  | (k2, _) :: rest =>
    if k2 = k ∧ needle <:+: k2 then Op.getCur :: Op.nextDup :: opsScanDupGo needle k rest else []

/-- Trace of the exact-scan loop: `curs.get(DB_CURRENT)` and `curs.next_dup()`
per iteration. -/
def opsScanDup (needle : Str) : List Entry → List Op
  | [] => []
  | (k, _) :: rest =>
    if needle <:+: k then Op.getCur :: Op.nextDup :: opsScanDupGo needle k rest else []

/-- Trace of `match_query` / one tag of `match_general`: open a cursor,
position it, run the loop, close the cursor. -/
def opsScanFrom (q_db : DB) (key needle : Str) (part : Bool) : List Op :=
  Op.openCur ::
    (if part then Op.setRange key :: opsScanPartial needle (q_db.dropWhile (fun e => decide (e.1 < key)))
     else Op.set key :: opsScanDup needle (q_db.dropWhile (fun e => decide (e.1 ≠ key)))) ++ [Op.close]

def ops_match_query (q_db : DB) (q : Str) (part : Bool) : List Op :=
  opsScanFrom q_db q q part

def ops_matchTag (tdb : DB) (tag : Char) (t : Str) (part : Bool) : List Op :=
  opsScanFrom tdb (tag :: '-' :: t) t part

def ops_match_general (tdb : DB) (t : Str) (part : Bool) : List Op :=
  ops_matchTag tdb 'l' t part ++ ops_matchTag tdb 'n' t part ++ ops_matchTag tdb 't' t part

def opsLess (date : Str) : List Entry → List Op
  | [] => []
  | (k, _) :: rest => if date ≤ k then [] else Op.next :: opsLess date rest

def opsNexts : List Entry → List Op
  | [] => []
  | _ :: rest => Op.next :: opsNexts rest

/-- Trace of `match_range`. -/
def ops_match_range (ddb : DB) (date : Str) (mid : Char) : List Op :=
  let pos := ddb.dropWhile (fun e => decide (e.1 < date))
  Op.openCur :: Op.setRange date ::
    (if mid = '<' then Op.first :: opsLess date ddb
     else Op.nextNodup ::
       (match pos with
        | [] => opsNexts ddb
        | (k, _) :: rest => opsNexts (rest.dropWhile (fun e => decide (e.1 = k))))) ++ [Op.close]

def ops_get_dates (ddb : DB) (date : Str) (mid : Char) : List Op :=
  if mid = ':' then ops_match_query ddb date false else ops_match_range ddb date mid

/-- Trace of `get_terms`; a token with an empty prefix raises before any
cursor is created, so its trace is empty. -/
def ops_get_terms (tdb : DB) (term : Str) (pfx : Option Str) : List Op :=
  let part := decide (term.getLast? = some '%')
  let t := if term.getLast? = some '%' then term.dropLast else term
  match pfx with
  | none => ops_match_general tdb t part
  | some p =>
    match p.head? with
    | none => []
    | some ch => ops_match_query tdb (ch :: '-' :: t) part

def ops_evalClause (ddb tdb : DB) (c : ClauseData) : List Op :=
  match c.pfx with
  | none => ops_get_terms tdb c.term none
  | some p =>
    if ¬ (dateT <:+: p) then ops_get_terms tdb c.term (some p)
    else
      match p.getLast? with
      | some m => ops_get_dates ddb c.term m
      | none => []

/-- Trace of the `Query.get_results` loop; the control flow (breaks) follows
the functional embedding `qloop`. -/
def ops_qloop (ddb tdb : DB) : List ClauseData → Option (Finset Str) → List Op
  | [], _ => []
  | c :: rest, res =>
    match evalClause ddb tdb c with
    | none => ops_evalClause ddb tdb c
    | some records =>
      ops_evalClause ddb tdb c ++
        (if records = ∅ then []
         else
           let res2 := match res with
             | none => records
             | some s => s ∩ records
           if res2 ≠ ∅ ∧ res2 = ∅ then [] else ops_qloop ddb tdb rest (some res2))

/-- Full trace of one query: parsing touches the store not at all, then the
clause loop runs. -/
def ops_get_results (ddb tdb : DB) (q : Str) : List Op :=
  match sort_terms q with
  | none => []
  | some cs => ops_qloop ddb tdb cs none

/-! ### Lemmas about the ordered clause list -/

theorem mem_insertLL (x d : ClauseData) :
    ∀ (l : List ClauseData), x ∈ insertLL d l ↔ x = d ∨ x ∈ l
  | [] => by simp [insertLL]
  | c :: rest => by
    by_cases h : d.code ≤ c.code <;>
      simp [insertLL, h, mem_insertLL x d rest] <;> tauto

theorem insertLL_sorted (d : ClauseData) :
    ∀ {l : List ClauseData}, l.Pairwise (fun a b => a.code ≤ b.code) →
      (insertLL d l).Pairwise (fun a b => a.code ≤ b.code)
  | [], _ => by simp [insertLL]
  | c :: rest, h => by
    rcases List.pairwise_cons.mp h with ⟨hc, hrest⟩
    by_cases hle : d.code ≤ c.code
    · rw [insertLL, if_pos hle]
      refine List.pairwise_cons.mpr ⟨?_, h⟩
      intro x hx
      rcases List.mem_cons.mp hx with rfl | hx
      · exact hle
      · exact le_trans hle (hc x hx)
    · rw [insertLL, if_neg hle]
      refine List.pairwise_cons.mpr ⟨?_, insertLL_sorted d hrest⟩
      intro x hx
      rcases (mem_insertLL x d rest).mp hx with rfl | hx
      · omega
      · exact hc x hx

theorem filter_insertLL (k : Nat) (d : ClauseData) :
    ∀ (l : List ClauseData),
      (insertLL d l).filter (fun c => c.code == k) =
        if d.code = k then d :: l.filter (fun c => c.code == k)
        else l.filter (fun c => c.code == k)
  | [] => by
    by_cases h : d.code = k
    · simp [insertLL, h]
    · have hb : (d.code == k) = false := by simpa using h
      simp [insertLL, h, hb]
  | c :: rest => by
    by_cases hle : d.code ≤ c.code
    · rw [insertLL, if_pos hle]
      by_cases h : d.code = k <;> simp [List.filter_cons, h]
    · rw [insertLL, if_neg hle]
      rw [List.filter_cons, List.filter_cons, filter_insertLL k d rest]
      by_cases h : d.code = k
      · have hck : (c.code == k) = false := by
          simp only [beq_eq_false_iff_ne]; omega
        simp [h, hck]
      · simp [h]

theorem length_insertLL (d : ClauseData) :
    ∀ (l : List ClauseData), (insertLL d l).length = l.length + 1
  | [] => by simp [insertLL]
  | c :: rest => by
    by_cases h : d.code ≤ c.code <;>
      simp [insertLL, h, length_insertLL d rest]

theorem mem_foldl_insertLL (x : ClauseData) :
    ∀ (ds : List ClauseData) (acc : List ClauseData),
      x ∈ ds.foldl (fun l d => insertLL d l) acc → x ∈ ds ∨ x ∈ acc
  | [], acc => by simp
  | d :: ds, acc => by
    intro hx
    rcases mem_foldl_insertLL x ds (insertLL d acc) hx with hx | hx
    · exact Or.inl (List.mem_cons_of_mem d hx)
    · rcases (mem_insertLL x d acc).mp hx with rfl | hx
      · exact Or.inl (List.mem_cons_self _ _)
      · exact Or.inr hx

theorem sorted_foldl_insertLL :
    ∀ (ds : List ClauseData) (acc : List ClauseData),
      acc.Pairwise (fun a b => a.code ≤ b.code) →
      (ds.foldl (fun l d => insertLL d l) acc).Pairwise (fun a b => a.code ≤ b.code)
  | [], acc, h => h
  | d :: ds, acc, h => sorted_foldl_insertLL ds (insertLL d acc) (insertLL_sorted d h)

theorem filter_foldl_insertLL (k : Nat) :
    ∀ (ds : List ClauseData) (acc : List ClauseData),
      (ds.foldl (fun l d => insertLL d l) acc).filter (fun c => c.code == k) =
        (ds.filter (fun c => c.code == k)).reverse ++ acc.filter (fun c => c.code == k)
  | [], acc => by simp
  | d :: ds, acc => by
    rw [List.foldl_cons, filter_foldl_insertLL k ds (insertLL d acc), filter_insertLL k d acc,
      List.filter_cons]
    by_cases h : d.code = k
    · simp [h]
    · simp [h]

theorem length_foldl_insertLL :
    ∀ (ds : List ClauseData) (acc : List ClauseData),
      (ds.foldl (fun l d => insertLL d l) acc).length = acc.length + ds.length
  | [], acc => by simp
  | d :: ds, acc => by
    rw [List.foldl_cons, length_foldl_insertLL ds (insertLL d acc), length_insertLL]
    simp only [List.length_cons]
    omega

/-! ### Lemmas about `pySplit` and `dropWhile` -/

theorem pySplit_ne_nil (sep : Char) : ∀ (l : Str), pySplit sep l ≠ []
  | [] => by simp [pySplit]
  | c :: rest => by
    rw [pySplit]
    by_cases h : c = sep
    · simp [h]
    · cases hps : pySplit sep rest with
      | nil => exact absurd hps (pySplit_ne_nil sep rest)
      | cons s ss => simp [h, hps]

theorem pySplit_length (sep : Char) :
    ∀ (l : Str), (pySplit sep l).length = l.count sep + 1
  | [] => by simp [pySplit]
  | c :: rest => by
    rw [pySplit]
    by_cases h : c = sep
    · simp [h, List.count_cons, pySplit_length sep rest]
    · cases hps : pySplit sep rest with
      | nil => exact absurd hps (pySplit_ne_nil sep rest)
      | cons s ss =>
        have := pySplit_length sep rest
        rw [hps] at this
        simp only [List.length_cons] at this
        simp [h, List.count_cons, this]

theorem mem_dropWhile_of_not {α : Type} (p : α → Bool) {x : α} :
    ∀ {l : List α}, x ∈ l → p x = false → x ∈ l.dropWhile p
  | [], hx, _ => by simp at hx
  | y :: t, hx, hpx => by
    by_cases hy : p y = true
    · rw [List.dropWhile_cons, if_pos hy]
      rcases List.mem_cons.mp hx with rfl | hx
      · rw [hpx] at hy; cases hy
      · exact mem_dropWhile_of_not p hx hpx
    · rw [List.dropWhile_cons, if_neg hy]
      exact hx

theorem mem_of_mem_dropWhile {α : Type} {p : α → Bool} {x : α} {l : List α}
    (h : x ∈ l.dropWhile p) : x ∈ l :=
  (List.dropWhile_sublist p).subset h

theorem DBSorted.dropWhile {db : DB} (hs : DBSorted db) (p : Entry → Bool) :
    DBSorted (db.dropWhile p) :=
  List.Pairwise.sublist (List.dropWhile_sublist p) hs

theorem key_ge_of_mem_dropWhile_lt {K : Str} {e : Entry} :
    ∀ {db : DB}, DBSorted db → e ∈ db.dropWhile (fun e => decide (e.1 < K)) → K ≤ e.1
  | [], _, he => by simp at he
  | x :: t, hs, he => by
    rcases List.pairwise_cons.mp hs with ⟨hx, ht⟩
    by_cases hlt : x.1 < K
    · rw [List.dropWhile_cons, if_pos (by simpa using hlt)] at he
      exact key_ge_of_mem_dropWhile_lt ht he
    · rw [List.dropWhile_cons, if_neg (by simpa using hlt)] at he
      rcases List.mem_cons.mp he with rfl | he
      · exact le_of_not_lt hlt
      · exact le_trans (le_of_not_lt hlt) (hx e he)

theorem mem_dropWhile_lt_iff {K : Str} {e : Entry} {db : DB} (hs : DBSorted db) :
    e ∈ db.dropWhile (fun e => decide (e.1 < K)) ↔ e ∈ db ∧ K ≤ e.1 := by
  constructor
  · intro h
    exact ⟨mem_of_mem_dropWhile h, key_ge_of_mem_dropWhile_lt hs h⟩
  · rintro ⟨h1, h2⟩
    exact mem_dropWhile_of_not _ h1 (by simpa using not_lt_of_le h2)

/-! ### Membership characterizations of the cursor scans -/

theorem mem_scanPartial_sorted (needle : Str) {v : Str} :
    ∀ {m : List Entry}, DBSorted m →
      (v ∈ scanPartial needle m ↔
        ∃ k, (k, v) ∈ m ∧ ∀ e ∈ m, e.1 ≤ k → needle <:+: e.1)
  | [], _ => by simp [scanPartial]
  | (k0, v0) :: rest, hs => by
    rcases List.pairwise_cons.mp hs with ⟨hk0, hrest⟩
    by_cases h : needle <:+: k0
    · rw [scanPartial, if_pos h, Finset.mem_insert]
      constructor
      · rintro (rfl | hv)
        · refine ⟨k0, List.mem_cons_self _ _, ?_⟩
          intro e he hle
          rcases List.mem_cons.mp he with rfl | he
          · exact h
          · have hek : e.1 = k0 := le_antisymm hle (hk0 e he)
            rw [hek]; exact h
        · rcases (mem_scanPartial_sorted needle hrest).mp hv with ⟨k, hmem, hcond⟩
          refine ⟨k, List.mem_cons_of_mem _ hmem, ?_⟩
          intro e he hle
          rcases List.mem_cons.mp he with rfl | he
          · exact h
          · exact hcond e he hle
      · rintro ⟨k, hmem, hcond⟩
        rcases List.mem_cons.mp hmem with heq | hmem
        · exact Or.inl (congrArg Prod.snd heq)
        · refine Or.inr ((mem_scanPartial_sorted needle hrest).mpr ⟨k, hmem, ?_⟩)
          intro e he hle
          exact hcond e (List.mem_cons_of_mem _ he) hle
    · rw [scanPartial, if_neg h]
      simp only [Finset.not_mem_empty, false_iff]
      rintro ⟨k, hmem, hcond⟩
      rcases List.mem_cons.mp hmem with heq | hmem
      · have hkk : k = k0 := congrArg Prod.fst heq
        exact h (by simpa [hkk] using hcond (k0, v0) (List.mem_cons_self _ _) (le_of_eq hkk.symm))
      · exact h (hcond (k0, v0) (List.mem_cons_self _ _) (hk0 _ hmem))

theorem mem_scanDupGo_sub {needle k : Str} {v : Str} :
    ∀ {t : List Entry}, v ∈ scanDupGo needle k t → (k, v) ∈ t
  | [], hv => by simp [scanDupGo] at hv
  | (k2, v2) :: rest, hv => by
    rw [scanDupGo] at hv
    by_cases h : k2 = k ∧ needle <:+: k2
    · rw [if_pos h] at hv
      rcases Finset.mem_insert.mp hv with rfl | hv
      · exact List.mem_cons.mpr (Or.inl (by rw [h.1]))
      · exact List.mem_cons_of_mem _ (mem_scanDupGo_sub hv)
    · rw [if_neg h] at hv
      simp at hv

theorem mem_scanDupGo_of {needle k : Str} {v : Str} :
    ∀ {t : List Entry}, t.Pairwise (fun a b : Entry => a.1 ≤ b.1) →
      (∀ e ∈ t, k ≤ e.1) → (k, v) ∈ t → needle <:+: k → v ∈ scanDupGo needle k t
  | [], _, _, hm, _ => by simp at hm
  | (k2, v2) :: rest, hp, hk, hm, hn => by
    rcases List.pairwise_cons.mp hp with ⟨h2, hrest⟩
    rcases List.mem_cons.mp hm with heq | hm
    · have hk2 : k2 = k := (congrArg Prod.fst heq).symm
      rw [scanDupGo, if_pos ⟨hk2, by rw [hk2]; exact hn⟩]
      exact Finset.mem_insert.mpr (Or.inl (congrArg Prod.snd heq))
    · have hle : k2 ≤ k := h2 _ hm
      have hge : k ≤ k2 := hk _ (List.mem_cons_self _ _)
      have hk2 : k2 = k := le_antisymm hle hge
      rw [scanDupGo, if_pos ⟨hk2, by rw [hk2]; exact hn⟩]
      refine Finset.mem_insert.mpr (Or.inr ?_)
      exact mem_scanDupGo_of hrest (fun e he => hk e (List.mem_cons_of_mem _ he)) hm hn

theorem head_key_of_dropWhile_ne {K : Str} {k0 v0 : Str} {t : List Entry} :
    ∀ {db : DB}, db.dropWhile (fun e => decide (e.1 ≠ K)) = (k0, v0) :: t → k0 = K
  | [], h => by simp at h
  | x :: rest, h => by
    by_cases hx : x.1 = K
    · rw [List.dropWhile_cons, if_neg (by simpa using hx)] at h
      injection h with h1 h2
      rw [h1] at hx
      exact hx
    · rw [List.dropWhile_cons, if_pos (by simpa using hx)] at h
      exact head_key_of_dropWhile_ne h

theorem mem_scanFrom_exact {db : DB} (hs : DBSorted db) (K needle v : Str) :
    v ∈ scanFrom db K needle false ↔ (K, v) ∈ db ∧ needle <:+: K := by
  rw [scanFrom]
  simp only [Bool.false_eq_true, if_false]
  cases hd : db.dropWhile (fun e => decide (e.1 ≠ K)) with
  | nil =>
    rw [scanDup]
    simp only [Finset.not_mem_empty, false_iff]
    rintro ⟨hm, _⟩
    have : (K, v) ∈ db.dropWhile (fun e => decide (e.1 ≠ K)) :=
      mem_dropWhile_of_not _ hm (by simp)
    rw [hd] at this
    simp at this
  | cons e0 t =>
    obtain ⟨k0, v0⟩ := e0
    have hk0 : k0 = K := head_key_of_dropWhile_ne hd
    subst hk0
    have hsub : ∀ x, x ∈ (k0, v0) :: t → x ∈ db := by
      intro x hx
      rw [← hd] at hx
      exact mem_of_mem_dropWhile hx
    have hsorted : List.Pairwise (fun a b : Entry => a.1 ≤ b.1) ((k0, v0) :: t) := by
      rw [← hd]; exact hs.dropWhile _
    rcases List.pairwise_cons.mp hsorted with ⟨hhead, htail⟩
    rw [scanDup]
    by_cases hn : needle <:+: k0
    · rw [if_pos hn, Finset.mem_insert]
      constructor
      · rintro (rfl | hv)
        · exact ⟨hsub _ (List.mem_cons_self _ _), hn⟩
        · exact ⟨hsub _ (List.mem_cons_of_mem _ (mem_scanDupGo_sub hv)), hn⟩
      · rintro ⟨hm, -⟩
        have : (k0, v) ∈ (k0, v0) :: t := by
          rw [← hd]
          exact mem_dropWhile_of_not _ hm (by simp)
        rcases List.mem_cons.mp this with heq | hmt
        · exact Or.inl (congrArg Prod.snd heq)
        · exact Or.inr (mem_scanDupGo_of htail hhead hmt hn)
    · rw [if_neg hn]
      simp only [Finset.not_mem_empty, false_iff]
      rintro ⟨-, hinf⟩
      exact hn hinf

theorem mem_scanFrom_wild {db : DB} (hs : DBSorted db) (K needle v : Str) :
    v ∈ scanFrom db K needle true ↔
      ∃ k, (k, v) ∈ db ∧ K ≤ k ∧ ∀ e ∈ db, K ≤ e.1 → e.1 ≤ k → needle <:+: e.1 := by
  rw [scanFrom, if_pos rfl]
  rw [mem_scanPartial_sorted needle (hs.dropWhile _)]
  constructor
  · rintro ⟨k, hm, hcond⟩
    rcases (mem_dropWhile_lt_iff hs).mp hm with ⟨hmdb, hKk⟩
    refine ⟨k, hmdb, hKk, ?_⟩
    intro e he hKe hek
    exact hcond e ((mem_dropWhile_lt_iff hs).mpr ⟨he, hKe⟩) hek
  · rintro ⟨k, hmdb, hKk, hcond⟩
    refine ⟨k, (mem_dropWhile_lt_iff hs).mpr ⟨hmdb, hKk⟩, ?_⟩
    intro e he hek
    rcases (mem_dropWhile_lt_iff hs).mp he with ⟨hedb, hKe⟩
    exact hcond e hedb hKe hek

theorem mem_collectLess {d : Str} {v : Str} :
    ∀ {l : List Entry}, DBSorted l →
      (v ∈ collectLess d l ↔ ∃ k, (k, v) ∈ l ∧ k < d)
  | [], _ => by simp [collectLess]
  | (k0, v0) :: rest, hs => by
    rcases List.pairwise_cons.mp hs with ⟨hk0, hrest⟩
    by_cases h : d ≤ k0
    · rw [collectLess, if_pos h]
      simp only [Finset.not_mem_empty, false_iff]
      rintro ⟨k, hm, hkd⟩
      rcases List.mem_cons.mp hm with heq | hm
      · have : k = k0 := congrArg Prod.fst heq
        exact absurd hkd (by rw [this]; exact not_lt_of_le h)
      · exact absurd hkd (not_lt_of_le (le_trans h (hk0 _ hm)))
    · rw [collectLess, if_neg h, Finset.mem_insert]
      constructor
      · rintro (rfl | hv)
        · exact ⟨k0, List.mem_cons_self _ _, lt_of_not_le h⟩
        · rcases (mem_collectLess hrest).mp hv with ⟨k, hm, hkd⟩
          exact ⟨k, List.mem_cons_of_mem _ hm, hkd⟩
      · rintro ⟨k, hm, hkd⟩
        rcases List.mem_cons.mp hm with heq | hm
        · exact Or.inl (congrArg Prod.snd heq)
        · exact Or.inr ((mem_collectLess hrest).mpr ⟨k, hm, hkd⟩)

theorem mem_collectAll {v : Str} {l : List Entry} :
    v ∈ collectAll l ↔ ∃ k, (k, v) ∈ l := by
  simp only [collectAll, List.mem_toFinset, List.mem_map]
  constructor
  · rintro ⟨⟨k, v2⟩, hm, rfl⟩
    exact ⟨k, hm⟩
  · rintro ⟨k, hm⟩
    exact ⟨(k, v), hm, rfl⟩

theorem key_gt_of_mem_dropWhile_eq {k0 : Str} {e : Entry} :
    ∀ {t : List Entry}, t.Pairwise (fun a b : Entry => a.1 ≤ b.1) →
      (∀ x ∈ t, k0 ≤ x.1) → e ∈ t.dropWhile (fun x => decide (x.1 = k0)) → k0 < e.1
  | [], _, _, he => by simp at he
  | (k2, v2) :: r, hp, hk, he => by
    rcases List.pairwise_cons.mp hp with ⟨h2, hr⟩
    by_cases heq : k2 = k0
    · rw [List.dropWhile_cons, if_pos (by simpa using heq)] at he
      exact key_gt_of_mem_dropWhile_eq hr (fun x hx => hk x (List.mem_cons_of_mem _ hx)) he
    · rw [List.dropWhile_cons, if_neg (by simpa using heq)] at he
      have hlt : k0 < k2 :=
        lt_of_le_of_ne (hk _ (List.mem_cons_self _ _)) (Ne.symm heq)
      rcases List.mem_cons.mp he with rfl | he
      · exact hlt
      · exact lt_of_lt_of_le hlt (h2 _ he)

/-! ### Lemmas about `procTerm` and `parseTokens` -/

theorem procTerm_code {t : Str} {d : ClauseData} (h : procTerm t = some d) :
    d.code = classify_term [] (rawPre t) (selMid t) (decide (t.getLast? = some '%')) := by
  cases hsel : selMid t with
  | none =>
    simp only [procTerm, hsel] at h
    injection h with h
    subst h
    simp only [rawPre, hsel]
    rfl
  | some m =>
    simp only [procTerm, hsel] at h
    cases hps : pySplit m t with
    | nil => rw [hps] at h; simp at h
    | cons p rest =>
      cases rest with
      | nil => rw [hps] at h; simp at h
      | cons w rest2 =>
        cases rest2 with
        | cons a rest3 => rw [hps] at h; simp at h
        | nil =>
          rw [hps] at h
          dsimp only at h
          simp only [rawPre, hsel, hps, List.headD]
          split_ifs at h <;> (injection h with h; subst h) <;> rfl

theorem classify_eq_rankTable (t : Str) (pre : Option Str) (mid : Option Char) (b : Bool) :
    classify_term t pre mid b = rankTable pre mid b := by
  cases pre with
  | none => cases b <;> rfl
  | some f =>
    by_cases hd : f = dateT
    · subst hd
      simp [classify_term, rankTable]
    · by_cases hn : f = nameT
      · subst hn
        have h1 : ¬ (nameT = dateT) := by decide
        cases b <;> simp [classify_term, rankTable, h1]
      · by_cases hl : f = locationT
        · subst hl
          have h1 : ¬ (locationT = dateT) := by decide
          have h2 : ¬ (locationT = nameT) := by decide
          cases b <;> simp [classify_term, rankTable, h1, h2]
        · by_cases ht : f = textT
          · subst ht
            have h1 : ¬ (textT = dateT) := by decide
            have h2 : ¬ (textT = nameT) := by decide
            have h3 : ¬ (textT = locationT) := by decide
            cases b <;> simp [classify_term, rankTable, h1, h2, h3]
          · cases b <;> simp [classify_term, rankTable, hd, hn, hl, ht]

theorem parseTokens_mem :
    ∀ {ts : List Str} {ds : List ClauseData}, parseTokens ts = some ds →
      ∀ c ∈ ds, ∃ t ∈ ts, procTerm t = some c
  | [], ds, h => by
    simp only [parseTokens] at h
    injection h with h
    subst h
    simp
  | t :: ts, ds, h => by
    rw [parseTokens] at h
    cases hpt : procTerm t with
    | none => rw [hpt] at h; simp at h
    | some d =>
      cases hts : parseTokens ts with
      | none => rw [hpt, hts] at h; simp at h
      | some ds2 =>
        rw [hpt, hts] at h
        injection h with h
        subst h
        intro c hc
        rcases List.mem_cons.mp hc with rfl | hc
        · exact ⟨t, List.mem_cons_self _ _, hpt⟩
        · rcases parseTokens_mem hts c hc with ⟨t2, ht2, hp2⟩
          exact ⟨t2, List.mem_cons_of_mem _ ht2, hp2⟩

theorem procTerm_isSome (t : Str)
    (h : Option.all (fun m => t.count m == 1) (selMid t) = true) :
    ∃ d, procTerm t = some d := by
  cases hsel : selMid t with
  | none =>
    exact ⟨⟨classify_term t none none (decide (t.getLast? = some '%')), none, t⟩,
      by simp [procTerm, hsel]⟩
  | some m =>
    rw [hsel] at h
    have hc : t.count m = 1 := by simpa [Option.all] using h
    have hlen : (pySplit m t).length = 2 := by rw [pySplit_length, hc]
    obtain ⟨p, w, hpw⟩ : ∃ p w, pySplit m t = [p, w] := by
      cases hps : pySplit m t with
      | nil => rw [hps] at hlen; simp at hlen
      | cons a rest =>
        cases rest with
        | nil => rw [hps] at hlen; simp at hlen
        | cons b rest2 =>
          cases rest2 with
          | nil => exact ⟨a, b, rfl⟩
          | cons e r3 => rw [hps] at hlen; simp at hlen
    simp only [procTerm, hsel, hpw]
    split_ifs <;> exact ⟨_, rfl⟩

theorem parseTokens_total :
    ∀ (ts : List Str), (∀ t ∈ ts, ∃ d, procTerm t = some d) →
      ∃ ds, parseTokens ts = some ds ∧ ds.length = ts.length
  | [], _ => ⟨[], rfl, rfl⟩
  | t :: ts, h => by
    obtain ⟨d, hd⟩ := h t (List.mem_cons_self _ _)
    obtain ⟨ds, hds, hlen⟩ :=
      parseTokens_total ts (fun x hx => h x (List.mem_cons_of_mem _ hx))
    exact ⟨d :: ds, by simp [parseTokens, hd, hds], by simp [hlen]⟩

/-! ### Claim theorems: parsing and clause ordering -/

/-- Claim C9: `classify_term` is total and always yields a rank between 1
and 10, hence every clause inserted into the ordered list carries a rank in
that range. -/
theorem claim_C9_rank_range :
    (∀ (t : Str) (pre : Option Str) (mid : Option Char) (b : Bool),
      1 ≤ classify_term t pre mid b ∧ classify_term t pre mid b ≤ 10) ∧
    (∀ (q : Str) (cs : List ClauseData), sort_terms q = some cs →
      ∀ c ∈ cs, 1 ≤ c.code ∧ c.code ≤ 10) := by
  have h1 : ∀ (t : Str) (pre : Option Str) (mid : Option Char) (b : Bool),
      1 ≤ classify_term t pre mid b ∧ classify_term t pre mid b ≤ 10 := by
    intro t pre mid b
    unfold classify_term
    split_ifs <;> omega
  refine ⟨h1, ?_⟩
  intro q cs hq c hc
  rw [sort_terms] at hq
  cases hpt : parseTokens (tokens q) with
  | none => rw [hpt] at hq; simp at hq
  | some ds =>
    rw [hpt] at hq
    injection hq with hq
    subst hq
    rcases mem_foldl_insertLL c ds [] hc with hc | hc
    · rcases parseTokens_mem hpt c hc with ⟨t, -, hp⟩
      rw [procTerm_code hp]
      exact h1 _ _ _ _
    · simp at hc

/-- Claim C9 witness at a concrete rank call and a concrete parsed query. -/
theorem claim_C9_rank_range_witness :
    (1 ≤ classify_term [] none none false ∧ classify_term [] none none false ≤ 10) ∧
    (∀ c ∈ [ClauseData.mk 5 none ['a']], 1 ≤ c.code ∧ c.code ≤ 10) :=
  ⟨claim_C9_rank_range.1 [] none none false,
    claim_C9_rank_range.2 ['a'] [ClauseData.mk 5 none ['a']] (by decide)⟩

/-- Claim C4 counterexample: in `"a b"` both tokens rank 5, the parser
emits them in order `a`, `b`, but the linked list stores them as `b`, `a`:
equal-rank clauses are evaluated in reverse (not original) order. -/
theorem claim_C4_counterexample :
    parseTokens (tokens "a b".toList) =
      some [⟨5, none, "a".toList⟩, ⟨5, none, "b".toList⟩] ∧
    sort_terms "a b".toList =
      some [⟨5, none, "b".toList⟩, ⟨5, none, "a".toList⟩] ∧
    ([⟨5, none, "b".toList⟩, ⟨5, none, "a".toList⟩] : List ClauseData) ≠
      [⟨5, none, "a".toList⟩, ⟨5, none, "b".toList⟩] := by decide

/-- Claim C4 amended: the clause list is in non-decreasing rank order, but
clauses of equal rank appear in reverse of their original left-to-right
order (`LinkedList.insert` places a new node before existing equal-rank
nodes). -/
theorem claim_C4_order (q : Str) (cs : List ClauseData) (h : sort_terms q = some cs) :
    cs.Pairwise (fun a b => a.code ≤ b.code) ∧
    ∀ ds, parseTokens (tokens q) = some ds →
      ∀ k, cs.filter (fun c => c.code == k) =
        (ds.filter (fun c => c.code == k)).reverse := by
  rw [sort_terms] at h
  cases hpt : parseTokens (tokens q) with
  | none => rw [hpt] at h; simp at h
  | some ds =>
    rw [hpt] at h
    injection h with h
    subst h
    refine ⟨sorted_foldl_insertLL ds [] (by simp), ?_⟩
    intro ds2 hds2 k
    injection hds2 with hds2
    subst hds2
    rw [filter_foldl_insertLL]
    simp

/-- Claim C4 amended, witness at the query `"a b"`. -/
theorem claim_C4_order_witness :
    List.Pairwise (fun a b : ClauseData => a.code ≤ b.code)
      [⟨5, none, "b".toList⟩, ⟨5, none, "a".toList⟩] :=
  (claim_C4_order "a b".toList
    [⟨5, none, "b".toList⟩, ⟨5, none, "a".toList⟩] (by decide)).1

/-- Claim C3 counterexample: token `name<x` degrades to an unprefixed
literal clause (prefix `None`, term `name<x`), whose §4.2 table value is 5,
yet the stored rank is 1 because `classify_term` runs before prefix
validation. -/
theorem claim_C3_counterexample :
    procTerm "name<x".toList = some ⟨1, none, "name<x".toList⟩ ∧
    rankTable none none false = 5 ∧ (1 : Nat) ≠ 5 := by decide

/-- Claim C3 amended: the stored rank equals the §4.2 table value keyed by
the raw pre-validation split (text left of the selected separator, the
separator, and whether the whole token ends in `%`), not by the
descriptor's final field. -/
theorem claim_C3_rank_from_presplit (t : Str) (d : ClauseData)
    (h : procTerm t = some d) :
    d.code = rankTable (rawPre t) (selMid t) (decide (t.getLast? = some '%')) := by
  rw [procTerm_code h, classify_eq_rankTable]

/-- Claim C3 amended, witness at the token `name<x`. -/
theorem claim_C3_rank_from_presplit_witness :
    (ClauseData.mk 1 none "name<x".toList).code =
      rankTable (rawPre "name<x".toList) (selMid "name<x".toList)
        (decide (("name<x".toList).getLast? = some '%')) :=
  claim_C3_rank_from_presplit "name<x".toList _ (by decide)

/-- Claim C7 counterexample: parsing fails with a `ValueError` on the token
`a:b:c` (two occurrences of the selected separator); and in
`date<2020:x` the separator `:` is selected by priority although `<` occurs
first, so the token degrades instead of parsing as a `date<` clause. -/
theorem claim_C7_counterexample :
    sort_terms "a:b:c".toList = none ∧
    procTerm "date<2020:x".toList = some ⟨5, none, "date<2020:x".toList⟩ := by decide

/-- Claim C7 amended: whenever every token contains exactly one occurrence
of its selected separator (selected by priority `:`, `>`, `<`), parsing
succeeds and produces exactly one clause descriptor per token. -/
theorem claim_C7_parse_one_per_token (q : Str)
    (h : ∀ t ∈ tokens q, Option.all (fun m => t.count m == 1) (selMid t) = true) :
    ∃ cs, sort_terms q = some cs ∧ cs.length = (tokens q).length := by
  obtain ⟨ds, hds, hlen⟩ :=
    parseTokens_total (tokens q) (fun t ht => procTerm_isSome t (h t ht))
  refine ⟨ds.foldl (fun l d => insertLL d l) [], by simp [sort_terms, hds], ?_⟩
  rw [length_foldl_insertLL]
  simpa using hlen

/-- Claim C7 amended, witness at the query `"name:al x"`. -/
theorem claim_C7_parse_one_per_token_witness :
    ∃ cs, sort_terms "name:al x".toList = some cs ∧
      cs.length = (tokens "name:al x".toList).length :=
  claim_C7_parse_one_per_token "name:al x".toList (by decide)

/-! ### Claim theorems: date and wildcard scans -/

/-- Claim C5 counterexample: with the single index entry `b ↦ R` and the
boundary `a`, a `date>a` scan returns nothing although `b` is strictly
greater than `a` (the scan skips the whole first key ≥ the boundary). -/
theorem claim_C5_counterexample :
    match_range [("b".toList, "R".toList)] "a".toList '>' = ∅ ∧
    ("a".toList : Str) < "b".toList := by decide

/-- Claim C5 amended: on a sorted dates index, `date:d` returns exactly the
records keyed `d` and `date<d` exactly those keyed strictly below `d`; but
`date>d` returns the records keyed strictly above the first stored key ≥
`d` when such a key exists (so keys above `d` but equal to that first key
are wrongly excluded when `d` itself is absent), and every record when no
stored key is ≥ `d`. -/
theorem claim_C5_date_semantics (ddb : DB) (d : Str) (hs : DBSorted ddb) :
    (∀ v, v ∈ get_dates ddb d ':' ↔ (d, v) ∈ ddb) ∧
    (∀ v, v ∈ match_range ddb d '<' ↔ ∃ k, (k, v) ∈ ddb ∧ k < d) ∧
    (∀ v, v ∈ match_range ddb d '>' ↔
      match ddb.dropWhile (fun e => decide (e.1 < d)) with
      | [] => ∃ k, (k, v) ∈ ddb
      | e :: _ => ∃ k, (k, v) ∈ ddb ∧ e.1 < k) := by
  refine ⟨?_, ?_, ?_⟩
  · intro v
    rw [get_dates, if_pos rfl, match_query, mem_scanFrom_exact hs]
    simp [List.infix_refl]
  · intro v
    have hlt : match_range ddb d '<' = collectLess d ddb := by
      simp [match_range]
    rw [hlt]
    exact mem_collectLess hs
  · intro v
    cases hpos : ddb.dropWhile (fun e => decide (e.1 < d)) with
    | nil =>
      have hform : match_range ddb d '>' = collectAll ddb := by
        simp [match_range, hpos]
      rw [hform, mem_collectAll]
    | cons e0 rest =>
      obtain ⟨k0, v0⟩ := e0
      have hform : match_range ddb d '>' =
          collectAll (rest.dropWhile (fun e => decide (e.1 = k0))) := by
        simp [match_range, hpos]
      rw [hform, mem_collectAll]
      dsimp only
      have hsorted_pos : List.Pairwise (fun a b : Entry => a.1 ≤ b.1) ((k0, v0) :: rest) := by
        rw [← hpos]; exact hs.dropWhile _
      rcases List.pairwise_cons.mp hsorted_pos with ⟨hhead, htail⟩
      have hd_le : d ≤ k0 :=
        key_ge_of_mem_dropWhile_lt hs (by rw [hpos]; exact List.mem_cons_self _ _)
      constructor
      · rintro ⟨k, hk⟩
        have hgt : k0 < k := key_gt_of_mem_dropWhile_eq htail hhead hk
        have hmem : (k, v) ∈ ddb := by
          have h2 : (k, v) ∈ (k0, v0) :: rest :=
            List.mem_cons_of_mem _ (mem_of_mem_dropWhile hk)
          rw [← hpos] at h2
          exact mem_of_mem_dropWhile h2
        exact ⟨k, hmem, hgt⟩
      · rintro ⟨k, hmem, hgt⟩
        have h1 : (k, v) ∈ (k0, v0) :: rest := by
          rw [← hpos]
          exact mem_dropWhile_of_not _ hmem
            (by simpa using not_lt_of_le (le_trans hd_le (le_of_lt hgt)))
        rcases List.mem_cons.mp h1 with heq | h2
        · have hkk : k = k0 := congrArg Prod.fst heq
          exact absurd hkk (ne_of_gt hgt)
        · exact ⟨k, mem_dropWhile_of_not _ h2 (by simpa using ne_of_gt hgt)⟩

/-- Claim C5 amended, witness on a concrete sorted dates index. -/
theorem claim_C5_date_semantics_witness :
    ("1".toList ∈
        match_range [("a".toList, "1".toList), ("b".toList, "2".toList)] "b".toList '<' ↔
      ∃ k, (k, "1".toList) ∈ [("a".toList, "1".toList), ("b".toList, "2".toList)] ∧
        k < "b".toList) :=
  (claim_C5_date_semantics [("a".toList, "1".toList), ("b".toList, "2".toList)]
    "b".toList (by decide)).2.1 "1".toList

/-- Claim C6 counterexample: with the single entry `l-xa ↦ R`, the
unqualified wildcard clause `a%` matches `R` although no stored key starts
with any of the tagged query keys `l-a`, `n-a`, `t-a` — the loop condition
is substring containment, not a prefix test. -/
theorem claim_C6_counterexample :
    match_general [("l-xa".toList, "R".toList)] "a".toList true = {"R".toList} ∧
    decide (("l-a".toList : Str) <+: "l-xa".toList) = false ∧
    decide (("n-a".toList : Str) <+: "l-xa".toList) = false ∧
    decide (("t-a".toList : Str) <+: "l-xa".toList) = false := by decide

/-- Claim C6 amended: on a sorted terms index a wildcard scan positions at
the first key ≥ the tagged query key and collects an identifier exactly
when every key from that position up to the identifier's key contains the
query term as a substring (`term in key`), rather than starting with it. -/
theorem claim_C6_wildcard_contains (db : DB) (hs : DBSorted db) :
    (∀ q v, v ∈ match_query db q true ↔
      ∃ k, (k, v) ∈ db ∧ q ≤ k ∧ ∀ e ∈ db, q ≤ e.1 → e.1 ≤ k → q <:+: e.1) ∧
    (∀ t v, v ∈ match_general db t true ↔
      ∃ c ∈ (['l', 'n', 't'] : List Char), ∃ k, (k, v) ∈ db ∧ (c :: '-' :: t) ≤ k ∧
        ∀ e ∈ db, (c :: '-' :: t) ≤ e.1 → e.1 ≤ k → t <:+: e.1) := by
  constructor
  · intro q v
    rw [match_query]
    exact mem_scanFrom_wild hs q q v
  · intro t v
    rw [match_general, Finset.mem_union, Finset.mem_union, matchTag, matchTag, matchTag,
      mem_scanFrom_wild hs _ t v, mem_scanFrom_wild hs _ t v,
      mem_scanFrom_wild hs _ t v]
    constructor
    · rintro ((h | h) | h)
      · exact ⟨'l', by simp, h⟩
      · exact ⟨'n', by simp, h⟩
      · exact ⟨'t', by simp, h⟩
    · rintro ⟨c, hc, h⟩
      simp only [List.mem_cons, List.not_mem_nil, or_false] at hc
      rcases hc with rfl | rfl | rfl
      · exact Or.inl (Or.inl h)
      · exact Or.inl (Or.inr h)
      · exact Or.inr h

/-- Claim C6 amended, witness on a concrete one-entry terms index. -/
theorem claim_C6_wildcard_contains_witness :
    ("R".toList ∈ match_query [("l-a".toList, "R".toList)] "l-a".toList true ↔
      ∃ k, (k, "R".toList) ∈ [("l-a".toList, "R".toList)] ∧ "l-a".toList ≤ k ∧
        ∀ e ∈ [("l-a".toList, "R".toList)], "l-a".toList ≤ e.1 → e.1 ≤ k →
          ("l-a".toList : Str) <:+: e.1) :=
  (claim_C6_wildcard_contains [("l-a".toList, "R".toList)] (by decide)).1
    "l-a".toList "R".toList

/-! ### Claim theorems: prefix-query monotonicity -/

theorem scanFrom_exact_subset_wild (db : DB) (hs : DBSorted db) (K needle : Str)
    (hn : needle <:+: K) : scanFrom db K needle false ⊆ scanFrom db K needle true := by
  intro v hv
  rcases (mem_scanFrom_exact hs K needle v).mp hv with ⟨hmem, hinf⟩
  refine (mem_scanFrom_wild hs K needle v).mpr ⟨K, hmem, le_refl K, ?_⟩
  intro e he h1 h2
  have hek : e.1 = K := le_antisymm h2 h1
  rw [hek]
  exact hinf

theorem matchTag_exact_subset (tdb : DB) (hs : DBSorted tdb) (c : Char) (b : Str) :
    matchTag tdb c b false ⊆ matchTag tdb c b true :=
  scanFrom_exact_subset_wild tdb hs _ b ⟨[c, '-'], [], by simp⟩

/-- Claim C8: the exact-match result set of a body `b` is always contained
in the result set of its wildcard form `b%`, for a field-qualified or an
unqualified clause, on a sorted terms index. -/
theorem claim_C8_exact_subset_wildcard (tdb : DB) (pfx : Option Str) (b : Str)
    (hs : DBSorted tdb) (hb : b.getLast? ≠ some '%') (hp : pfx ≠ some [])
    (s1 s2 : Finset Str)
    (h1 : get_terms tdb b pfx = some s1)
    (h2 : get_terms tdb (b ++ ['%']) pfx = some s2) :
    s1 ⊆ s2 := by
  have hbl : (b ++ ['%']).getLast? = some '%' := by simp
  have hdrop : (b ++ ['%']).dropLast = b := List.dropLast_concat
  have e1 : decide (b.getLast? = some '%') = false := by simpa using hb
  have e2 : decide ((b ++ ['%']).getLast? = some '%') = true := by simp [hbl]
  cases pfx with
  | none =>
    simp only [get_terms, e1, e2, if_neg hb, if_pos hbl, hdrop,
      Option.some.injEq] at h1 h2
    subst h1
    subst h2
    rw [match_general, match_general]
    exact Finset.union_subset_union
      (Finset.union_subset_union (matchTag_exact_subset tdb hs 'l' b)
        (matchTag_exact_subset tdb hs 'n' b))
      (matchTag_exact_subset tdb hs 't' b)
  | some p =>
    cases p with
    | nil => exact absurd rfl hp
    | cons ch pr =>
      simp only [get_terms, e1, e2, if_neg hb, if_pos hbl, hdrop, List.head?_cons,
        Option.some.injEq] at h1 h2
      subst h1
      subst h2
      rw [match_query, match_query]
      exact scanFrom_exact_subset_wild tdb hs _ _ (List.infix_refl _)

/-- Claim C8 witness: a concrete one-entry terms index where the exact and
the wildcard query for `al` under `name:` both return the same record. -/
theorem claim_C8_exact_subset_wildcard_witness :
    ({"A".toList} : Finset Str) ⊆ {"A".toList} :=
  claim_C8_exact_subset_wildcard [("n-al".toList, "A".toList)] (some "name:".toList)
    "al".toList (by decide) (by decide) (by decide) {"A".toList} {"A".toList}
    (by decide) (by decide)

/-! ### Claim theorems: aggregation -/

theorem opt_eq_some_getD {α : Type} {o : Option α} (h : o ≠ none) (d : α) :
    o = some (o.getD d) := by
  cases o with
  | none => exact absurd rfl h
  | some x => rfl

theorem evalClause_eq_some (ddb tdb : DB) (c : ClauseData) (h : GoodClause c) :
    evalClause ddb tdb c = some (clauseMatch ddb tdb c) := by
  have hne : evalClause ddb tdb c ≠ none := by
    rcases h with h | h
    · rw [evalClause, h]
      simp [get_terms]
    · simp only [List.mem_cons, List.not_mem_nil, or_false] at h
      rcases h with h | h | h | h | h | h <;> rw [evalClause, h] <;> dsimp only
      · rw [if_pos (by decide : ¬ (dateT <:+: "name:".toList))]
        simp [get_terms]
      · rw [if_pos (by decide : ¬ (dateT <:+: "location:".toList))]
        simp [get_terms]
      · rw [if_pos (by decide : ¬ (dateT <:+: "text:".toList))]
        simp [get_terms]
      · rw [if_neg (by decide : ¬ ¬ (dateT <:+: "date:".toList))]
        have hl : ("date:".toList).getLast? = some ':' := rfl
        rw [hl]
        simp
      · rw [if_neg (by decide : ¬ ¬ (dateT <:+: "date<".toList))]
        have hl : ("date<".toList).getLast? = some '<' := rfl
        rw [hl]
        simp
      · rw [if_neg (by decide : ¬ ¬ (dateT <:+: "date>".toList))]
        have hl : ("date>".toList).getLast? = some '>' := rfl
        rw [hl]
        simp
  exact opt_eq_some_getD hne ∅

theorem foldl_inter_empty (f : ClauseData → Finset Str) :
    ∀ (l : List ClauseData), l.foldl (fun a x => a ∩ f x) ∅ = ∅
  | [] => rfl
  | c :: l => by
    rw [List.foldl_cons, Finset.empty_inter]
    exact foldl_inter_empty f l

theorem qloop_good (ddb tdb : DB) :
    ∀ (cs : List ClauseData) (s : Finset Str), (∀ x ∈ cs, GoodClause x) →
      qloop ddb tdb cs (some s) =
        some (some (cs.foldl (fun a x => a ∩ clauseMatch ddb tdb x) s))
  | [], s, _ => rfl
  | c :: rest, s, hg => by
    rw [qloop, evalClause_eq_some ddb tdb c (hg c (List.mem_cons_self _ _))]
    dsimp only
    by_cases hrec : clauseMatch ddb tdb c = ∅
    · rw [if_pos hrec, List.foldl_cons, hrec, Finset.inter_empty, foldl_inter_empty]
    · rw [if_neg hrec, if_neg (by rintro ⟨ha, hb⟩; exact ha hb), List.foldl_cons]
      exact qloop_good ddb tdb rest (s ∩ clauseMatch ddb tdb c)
        (fun x hx => hg x (List.mem_cons_of_mem _ hx))

/-- Claim C1 counterexample: the query `":a"` parses into exactly one
clause (with an empty-string prefix), but evaluation raises `IndexError`
at `prefix[0]` instead of returning any result sequence. -/
theorem claim_C1_counterexample :
    get_results [] [] ":a".toList = none ∧
    (sort_terms ":a".toList).map List.length = some 1 := by decide

/-- Claim C1 amended: for a query parsing into at least one clause all of
whose stored prefixes are well formed (`None` or one of the six recognized
prefixes — excluded is only the empty-string prefix of a token starting
with its separator, on which evaluation raises), the result is the
ascending sorted sequence of the intersection of all clause match sets. -/
theorem claim_C1_sorted_intersection (ddb tdb : DB) (q : Str) (c0 : ClauseData)
    (cs : List ClauseData) (h : sort_terms q = some (c0 :: cs))
    (hg : ∀ x ∈ c0 :: cs, GoodClause x) :
    get_results ddb tdb q =
      some (Finset.sort (· ≤ ·)
        (cs.foldl (fun a x => a ∩ clauseMatch ddb tdb x) (clauseMatch ddb tdb c0))) := by
  have hq : qloop ddb tdb (c0 :: cs) none =
      some (some (cs.foldl (fun a x => a ∩ clauseMatch ddb tdb x)
        (clauseMatch ddb tdb c0))) := by
    rw [qloop, evalClause_eq_some ddb tdb c0 (hg c0 (List.mem_cons_self _ _))]
    dsimp only
    by_cases h1 : clauseMatch ddb tdb c0 = ∅
    · rw [if_pos h1, h1, foldl_inter_empty]
    · rw [if_neg h1, if_neg (by rintro ⟨ha, hb⟩; exact ha hb)]
      exact qloop_good ddb tdb cs _ (fun x hx => hg x (List.mem_cons_of_mem _ hx))
  rw [get_results, h]
  dsimp only
  rw [hq]
  by_cases h2 : cs.foldl (fun a x => a ∩ clauseMatch ddb tdb x)
      (clauseMatch ddb tdb c0) = ∅
  · simp [h2, Finset.sort_empty]
  · simp [h2]

/-- Claim C1 amended, witness at the one-clause query `name:alice`. -/
theorem claim_C1_sorted_intersection_witness :
    get_results [] [("n-alice".toList, "A".toList)] "name:alice".toList =
      some (Finset.sort (· ≤ ·)
        (clauseMatch [] [("n-alice".toList, "A".toList)]
          ⟨1, some "name:".toList, "alice".toList⟩)) :=
  claim_C1_sorted_intersection [] [("n-alice".toList, "A".toList)]
    "name:alice".toList ⟨1, some "name:".toList, "alice".toList⟩ []
    (by decide) (by decide)

/-! ### Claim theorems: frame (read-only store access) -/

theorem opsScanPartial_mem {needle : Str} {op : Op} :
    ∀ {l : List Entry}, op ∈ opsScanPartial needle l → op = Op.getCur ∨ op = Op.next
  | [], h => by simp [opsScanPartial] at h
  | (k, v) :: rest, h => by
    rw [opsScanPartial] at h
    by_cases hc : needle <:+: k
    · rw [if_pos hc] at h
      rcases List.mem_cons.mp h with rfl | h
      · exact Or.inl rfl
      · rcases List.mem_cons.mp h with rfl | h
        · exact Or.inr rfl
        · exact opsScanPartial_mem h
    · rw [if_neg hc] at h
      simp at h

theorem opsScanDupGo_mem {needle k : Str} {op : Op} :
    ∀ {l : List Entry}, op ∈ opsScanDupGo needle k l → op = Op.getCur ∨ op = Op.nextDup
  | [], h => by simp [opsScanDupGo] at h
  | (k2, v2) :: rest, h => by
    rw [opsScanDupGo] at h
    by_cases hc : k2 = k ∧ needle <:+: k2
    · rw [if_pos hc] at h
      rcases List.mem_cons.mp h with rfl | h
      · exact Or.inl rfl
      · rcases List.mem_cons.mp h with rfl | h
        · exact Or.inr rfl
        · exact opsScanDupGo_mem h
    · rw [if_neg hc] at h
      simp at h

theorem opsScanDup_mem {needle : Str} {op : Op} :
    ∀ {l : List Entry}, op ∈ opsScanDup needle l → op = Op.getCur ∨ op = Op.nextDup
  | [], h => by simp [opsScanDup] at h
  | (k, v) :: rest, h => by
    rw [opsScanDup] at h
    by_cases hc : needle <:+: k
    · rw [if_pos hc] at h
      rcases List.mem_cons.mp h with rfl | h
      · exact Or.inl rfl
      · rcases List.mem_cons.mp h with rfl | h
        · exact Or.inr rfl
        · exact opsScanDupGo_mem h
    · rw [if_neg hc] at h
      simp at h

theorem opsLess_mem {d : Str} {op : Op} :
    ∀ {l : List Entry}, op ∈ opsLess d l → op = Op.next
  | [], h => by simp [opsLess] at h
  | (k, v) :: rest, h => by
    rw [opsLess] at h
    by_cases hc : d ≤ k
    · rw [if_pos hc] at h
      simp at h
    · rw [if_neg hc] at h
      rcases List.mem_cons.mp h with rfl | h
      · rfl
      · exact opsLess_mem h

theorem opsNexts_mem {op : Op} :
    ∀ {l : List Entry}, op ∈ opsNexts l → op = Op.next
  | [], h => by simp [opsNexts] at h
  | e :: rest, h => by
    rw [opsNexts] at h
    rcases List.mem_cons.mp h with rfl | h
    · rfl
    · exact opsNexts_mem h

/-- Bundle: a trace is write-free and opens exactly as many cursors as it
closes. -/
def TraceOk (l : List Op) : Prop :=
  (∀ op ∈ l, benign op = true) ∧ l.count Op.openCur = l.count Op.close

theorem traceOk_nil : TraceOk [] := ⟨by simp, by simp⟩

theorem traceOk_append {l1 l2 : List Op} (h1 : TraceOk l1) (h2 : TraceOk l2) :
    TraceOk (l1 ++ l2) := by
  refine ⟨?_, ?_⟩
  · intro op hop
    rcases List.mem_append.mp hop with h | h
    · exact h1.1 op h
    · exact h2.1 op h
  · simp [List.count_append, h1.2, h2.2]

theorem count_sandwich (mid : List Op) (h1 : Op.openCur ∉ mid) (h2 : Op.close ∉ mid) :
    ((Op.openCur :: mid) ++ [Op.close]).count Op.openCur =
      ((Op.openCur :: mid) ++ [Op.close]).count Op.close := by
  simp only [List.count_append, List.count_cons, List.count_nil,
    List.count_eq_zero.mpr h1, List.count_eq_zero.mpr h2]
  decide

theorem opsScanFrom_props (db : DB) (key needle : Str) (b : Bool) :
    TraceOk (opsScanFrom db key needle b) ∧
    (opsScanFrom db key needle b).getLast? = some Op.close := by
  cases b with
  | true =>
    have hform : opsScanFrom db key needle true =
        (Op.openCur :: Op.setRange key ::
          opsScanPartial needle (db.dropWhile (fun e => decide (e.1 < key)))) ++
          [Op.close] := rfl
    have hmid1 : Op.openCur ∉ Op.setRange key ::
        opsScanPartial needle (db.dropWhile (fun e => decide (e.1 < key))) := by
      intro hc
      rcases List.mem_cons.mp hc with hc | hc
      · exact Op.noConfusion hc
      · rcases opsScanPartial_mem hc with hc | hc <;> exact Op.noConfusion hc
    have hmid2 : Op.close ∉ Op.setRange key ::
        opsScanPartial needle (db.dropWhile (fun e => decide (e.1 < key))) := by
      intro hc
      rcases List.mem_cons.mp hc with hc | hc
      · exact Op.noConfusion hc
      · rcases opsScanPartial_mem hc with hc | hc <;> exact Op.noConfusion hc
    refine ⟨⟨?_, ?_⟩, ?_⟩
    · intro op hop
      rw [hform] at hop
      rcases List.mem_append.mp hop with hop | hop
      · rcases List.mem_cons.mp hop with rfl | hop
        · rfl
        · rcases List.mem_cons.mp hop with rfl | hop
          · rfl
          · rcases opsScanPartial_mem hop with rfl | rfl <;> rfl
      · rcases List.mem_cons.mp hop with rfl | hop
        · rfl
        · simp at hop
    · rw [hform]
      exact count_sandwich _ hmid1 hmid2
    · rw [hform, List.getLast?_concat]
  | false =>
    have hform : opsScanFrom db key needle false =
        (Op.openCur :: Op.set key ::
          opsScanDup needle (db.dropWhile (fun e => decide (e.1 ≠ key)))) ++
          [Op.close] := rfl
    have hmid1 : Op.openCur ∉ Op.set key ::
        opsScanDup needle (db.dropWhile (fun e => decide (e.1 ≠ key))) := by
      intro hc
      rcases List.mem_cons.mp hc with hc | hc
      · exact Op.noConfusion hc
      · rcases opsScanDup_mem hc with hc | hc <;> exact Op.noConfusion hc
    have hmid2 : Op.close ∉ Op.set key ::
        opsScanDup needle (db.dropWhile (fun e => decide (e.1 ≠ key))) := by
      intro hc
      rcases List.mem_cons.mp hc with hc | hc
      · exact Op.noConfusion hc
      · rcases opsScanDup_mem hc with hc | hc <;> exact Op.noConfusion hc
    refine ⟨⟨?_, ?_⟩, ?_⟩
    · intro op hop
      rw [hform] at hop
      rcases List.mem_append.mp hop with hop | hop
      · rcases List.mem_cons.mp hop with rfl | hop
        · rfl
        · rcases List.mem_cons.mp hop with rfl | hop
          · rfl
          · rcases opsScanDup_mem hop with rfl | rfl <;> rfl
      · rcases List.mem_cons.mp hop with rfl | hop
        · rfl
        · simp at hop
    · rw [hform]
      exact count_sandwich _ hmid1 hmid2
    · rw [hform, List.getLast?_concat]

theorem ops_match_range_form (ddb : DB) (d : Str) (m : Char) :
    ∃ mid, ops_match_range ddb d m =
        (Op.openCur :: Op.setRange d :: mid) ++ [Op.close] ∧
      (∀ op ∈ mid, op = Op.first ∨ op = Op.nextNodup ∨ op = Op.next) := by
  by_cases hm : m = '<'
  · subst hm
    refine ⟨Op.first :: opsLess d ddb, rfl, ?_⟩
    intro op hop
    rcases List.mem_cons.mp hop with rfl | hop
    · exact Or.inl rfl
    · exact Or.inr (Or.inr (opsLess_mem hop))
  · cases hpos : ddb.dropWhile (fun e => decide (e.1 < d)) with
    | nil =>
      refine ⟨Op.nextNodup :: opsNexts ddb, ?_, ?_⟩
      · rw [ops_match_range]
        rw [if_neg hm, hpos]
      · intro op hop
        rcases List.mem_cons.mp hop with rfl | hop
        · exact Or.inr (Or.inl rfl)
        · exact Or.inr (Or.inr (opsNexts_mem hop))
    | cons e rest =>
      obtain ⟨k, v⟩ := e
      refine ⟨Op.nextNodup :: opsNexts (rest.dropWhile (fun e => decide (e.1 = k))), ?_, ?_⟩
      · rw [ops_match_range]
        rw [if_neg hm, hpos]
      · intro op hop
        rcases List.mem_cons.mp hop with rfl | hop
        · exact Or.inr (Or.inl rfl)
        · exact Or.inr (Or.inr (opsNexts_mem hop))

theorem ops_match_range_props (ddb : DB) (d : Str) (m : Char) :
    TraceOk (ops_match_range ddb d m) ∧
    (ops_match_range ddb d m).getLast? = some Op.close := by
  obtain ⟨mid, hform, hmid⟩ := ops_match_range_form ddb d m
  have hmid1 : Op.openCur ∉ Op.setRange d :: mid := by
    intro hc
    rcases List.mem_cons.mp hc with hc | hc
    · exact Op.noConfusion hc
    · rcases hmid _ hc with hc | hc | hc <;> exact Op.noConfusion hc
  have hmid2 : Op.close ∉ Op.setRange d :: mid := by
    intro hc
    rcases List.mem_cons.mp hc with hc | hc
    · exact Op.noConfusion hc
    · rcases hmid _ hc with hc | hc | hc <;> exact Op.noConfusion hc
  refine ⟨⟨?_, ?_⟩, ?_⟩
  · intro op hop
    rw [hform] at hop
    rcases List.mem_append.mp hop with hop | hop
    · rcases List.mem_cons.mp hop with rfl | hop
      · rfl
      · rcases List.mem_cons.mp hop with rfl | hop
        · rfl
        · rcases hmid _ hop with rfl | rfl | rfl <;> rfl
    · rcases List.mem_cons.mp hop with rfl | hop
      · rfl
      · simp at hop
  · rw [hform]
    exact count_sandwich _ hmid1 hmid2
  · rw [hform, List.getLast?_concat]

theorem traceOk_ops_match_general (tdb : DB) (t : Str) (b : Bool) :
    TraceOk (ops_match_general tdb t b) := by
  rw [ops_match_general]
  exact traceOk_append
    (traceOk_append (opsScanFrom_props _ _ _ _).1 (opsScanFrom_props _ _ _ _).1)
    (opsScanFrom_props _ _ _ _).1

theorem traceOk_ops_get_terms (tdb : DB) (term : Str) (pfx : Option Str) :
    TraceOk (ops_get_terms tdb term pfx) := by
  cases pfx with
  | none => exact traceOk_ops_match_general _ _ _
  | some p =>
    rw [ops_get_terms]
    cases p.head? with
    | none => exact traceOk_nil
    | some ch => exact (opsScanFrom_props _ _ _ _).1

theorem traceOk_ops_get_dates (ddb : DB) (d : Str) (m : Char) :
    TraceOk (ops_get_dates ddb d m) := by
  rw [ops_get_dates]
  by_cases hm : m = ':'
  · rw [if_pos hm]
    exact (opsScanFrom_props _ _ _ _).1
  · rw [if_neg hm]
    exact (ops_match_range_props _ _ _).1

theorem traceOk_ops_evalClause (ddb tdb : DB) (c : ClauseData) :
    TraceOk (ops_evalClause ddb tdb c) := by
  rw [ops_evalClause]
  cases c.pfx with
  | none => exact traceOk_ops_get_terms _ _ _
  | some p =>
    dsimp only
    by_cases hd : ¬ (dateT <:+: p)
    · rw [if_pos hd]
      exact traceOk_ops_get_terms _ _ _
    · rw [if_neg hd]
      cases p.getLast? with
      | none => exact traceOk_nil
      | some m => exact traceOk_ops_get_dates _ _ _

theorem traceOk_ops_qloop (ddb tdb : DB) :
    ∀ (cs : List ClauseData) (res : Option (Finset Str)),
      TraceOk (ops_qloop ddb tdb cs res)
  | [], _ => traceOk_nil
  | c :: rest, res => by
    rw [ops_qloop]
    cases evalClause ddb tdb c with
    | none => exact traceOk_ops_evalClause _ _ _
    | some records =>
      dsimp only
      refine traceOk_append (traceOk_ops_evalClause _ _ _) ?_
      by_cases h1 : records = ∅
      · rw [if_pos h1]
        exact traceOk_nil
      · rw [if_neg h1]
        by_cases h2 : (match res with
            | none => records
            | some s => s ∩ records) ≠ ∅ ∧ (match res with
            | none => records
            | some s => s ∩ records) = ∅
      -- the dead guard
        · rw [if_pos h2]
          exact traceOk_nil
        · rw [if_neg h2]
          exact traceOk_ops_qloop ddb tdb rest _

theorem foldl_applyOp_benign :
    ∀ {l : List Op}, (∀ op ∈ l, benign op = true) → ∀ s : DB, l.foldl applyOp s = s
  | [], _, s => rfl
  | op :: l, h, s => by
    have hop : benign op = true := h op (List.mem_cons_self _ _)
    have hs : applyOp s op = s := by
      cases op <;> first | rfl | simp [benign] at hop
    rw [List.foldl_cons, hs]
    exact foldl_applyOp_benign (fun x hx => h x (List.mem_cons_of_mem _ hx)) s

/-- Claim C10: query processing is read-only.  Parsing performs no store
operation (the trace comes solely from the clause loop), every operation in
a query's trace is a read (never `put`/`del`), interpreting the trace
against any store state leaves it unchanged, cursor opens and closes are
balanced, and every single scan's trace ends by closing its cursor. -/
theorem claim_C10_readonly :
    ∀ (ddb tdb : DB) (q : Str),
      (∀ op ∈ ops_get_results ddb tdb q, benign op = true) ∧
      (∀ s : DB, (ops_get_results ddb tdb q).foldl applyOp s = s) ∧
      ((ops_get_results ddb tdb q).count Op.openCur =
        (ops_get_results ddb tdb q).count Op.close) ∧
      (∀ (db : DB) (key needle : Str) (b : Bool),
        (opsScanFrom db key needle b).getLast? = some Op.close) ∧
      (∀ (db : DB) (d : Str) (m : Char),
        (ops_match_range db d m).getLast? = some Op.close) := by
  intro ddb tdb q
  have hok : TraceOk (ops_get_results ddb tdb q) := by
    rw [ops_get_results]
    cases sort_terms q with
    | none => exact traceOk_nil
    | some cs => exact traceOk_ops_qloop ddb tdb cs none
  exact ⟨hok.1, fun s => foldl_applyOp_benign hok.1 s, hok.2,
    fun db key needle b => (opsScanFrom_props db key needle b).2,
    fun db d m => (ops_match_range_props db d m).2⟩

/-- Claim C2 (code bug) evidence: for
`name:alice name:bob name:alice` against `{n-alice ↦ A, n-bob ↦ B}` the
running intersection is empty after the second clause, yet all three
clauses open a cursor (3 opens, not 2): the guard
`if self.results and len(self.results) == 0` in `get_results` is never
true, so an empty intersection does not short-circuit. -/
theorem claim_C2_lookup_after_empty_result :
    (sort_terms "name:alice name:bob name:alice".toList).map List.length = some 3 ∧
    (ops_get_results [] [("n-alice".toList, "A".toList), ("n-bob".toList, "B".toList)]
      "name:alice name:bob name:alice".toList).count Op.openCur = 3 ∧
    get_results [] [("n-alice".toList, "A".toList), ("n-bob".toList, "B".toList)]
      "name:alice name:bob name:alice".toList = some [] := by decide
